import Mathlib

/-!
# Verification of the Avalanche consensus service core

Shallow embedding of the DAG store (`src/dag/dag.go`) and the Avalanche
consensus engine (`src/consensus/avalanche.go`) of the
`avalanche-consensus-service` repository, together with theorems settling
the specification claims about them.

Modelling conventions:
* Go maps keyed by vertex id are association lists `List (String × Vertex)`;
  map insertion/deletion become `addId`/`List.erase` style operations on id
  lists (map semantics: a key occurs at most once in well-formed states).
* The opaque `interface{}` payload, used only for equality comparison, is a
  `Nat`.
* The mutable `*Vertex` pointer graph is replaced by the central vertex
  table with parent/child id lists; updates go through the table.
* Randomness (`crypto/rand` in the Fisher-Yates shuffle and the biased coin
  of `checkPreference`) is supplied by an explicit `Oracle` parameter;
  theorems quantify over all oracles.
* The recursive DFS helpers (`wouldCreateCycle`, the ancestor walk of
  `checkPreference`) become a fuel-based worklist DFS; the fuel is large
  enough for every concrete evaluation, and no theorem depends on a fuel
  bound argument.
-/

/-- A vertex of the DAG, mirroring `dag.Vertex` (the `Color` field is dead
code, never read or written outside its declaration, and is omitted). -/
structure Vertex where
  id : String
  data : Nat
  parents : List String
  children : List String
  preferred : Bool
  finalized : Bool
deriving Repr, DecidableEq

/-- The DAG store, mirroring `dag.DAG`: the vertex table and the set of
roots (the lock is concurrency plumbing with no logical content). -/
structure DAG where
  vertices : List (String × Vertex)
  roots : List String
deriving Repr, DecidableEq

/-- Errors surfaced by the DAG store (`dag.DAGError` values). -/
inductive DAGError where
  | vertexAlreadyExists
  | vertexNotFound
  | wouldCreateCycle
deriving Repr, DecidableEq

/-- Association-list lookup for the vertex table (Go map read). -/
def lookupV : List (String × Vertex) → String → Option Vertex
  | [], _ => none
  | (k, v) :: rest, id => if k = id then some v else lookupV rest id

/-- Update the entry of a key in the vertex table (Go mutation through a
`*Vertex` held in the map). -/
def updateV : List (String × Vertex) → String → (Vertex → Vertex) → List (String × Vertex)
  | [], _, _ => []
  | (k, v) :: rest, id, f =>
    if k = id then (k, f v) :: rest else (k, v) :: updateV rest id f

/-- Delete a key from the vertex table (Go `delete`). -/
def removeKey (vs : List (String × Vertex)) (id : String) : List (String × Vertex) :=
  vs.filter (fun kv => kv.1 ≠ id)

/-- Insert an id into an id set unless present (Go map-as-set insertion). -/
def addId (l : List String) (x : String) : List String :=
  if x ∈ l then l else l ++ [x]

/-- `NewDAG`. -/
def DAG.new : DAG := { vertices := [], roots := [] }

/-- Worklist depth-first search through parent edges with an explicit
visited set, mirroring the recursive `dfs` closure of `wouldCreateCycle`
(and the identical `checkParent` closure of `checkPreference`): pop an id,
report success if it is the target, otherwise push its parents. -/
def dfsParents (vs : List (String × Vertex)) (target : String) :
    Nat → List String → List String → Bool
  | 0, _, _ => false
  | Nat.succ fuel, worklist, visited =>
    match worklist with
    | [] => false
    | vid :: rest =>
      if vid = target then true
      else if vid ∈ visited then dfsParents vs target fuel rest visited
      else
        match lookupV vs vid with
        | none => dfsParents vs target fuel rest (vid :: visited)
        | some v => dfsParents vs target fuel (v.parents ++ rest) (vid :: visited)

/-- Fuel amply sufficient for the DFS over a given table. -/
def DAG.fuel (g : DAG) : Nat :=
  g.vertices.foldl (fun a kv => a + 2 * kv.2.parents.length + 2) 2

/-- `wouldCreateCycle(parent, child)`: DFS starting from `child`, walking
parent edges, looking for `parent.ID` (this is the direction the source
actually implements). -/
def DAG.wouldCreateCycle (g : DAG) (parent child : Vertex) : Bool :=
  dfsParents g.vertices parent.id g.fuel [child.id] []

/-- The vertex value built by `dag.AddVertex` (zero values for the flags,
empty parent/child sets). -/
def freshVertex (id : String) (data : Nat) : Vertex :=
  { id := id, data := data, parents := [], children := [],
    preferred := false, finalized := false }

/-- The state change of a successful `dag.AddVertex`: append the fresh
vertex to the table and mark it a root. -/
def insertFresh (g : DAG) (id : String) (data : Nat) : DAG :=
  { g with vertices := g.vertices ++ [(id, freshVertex id data)],
           roots := addId g.roots id }

/-- `dag.AddVertex(id, data)`: reject a duplicate id, otherwise insert a
fresh vertex and mark it a root. State is returned alongside the Go result
value. -/
def DAG.addVertex (g : DAG) (id : String) (data : Nat) :
    Except DAGError Vertex × DAG :=
  match lookupV g.vertices id with
  | some _ => (.error .vertexAlreadyExists, g)
  | none => (.ok (freshVertex id data), insertFresh g id data)

/-- `dag.AddEdge(parentID, childID)`: both endpoints must exist, the cycle
check must pass; then link the edge bidirectionally and unroot the child. -/
def DAG.addEdge (g : DAG) (parentID childID : String) :
    Except DAGError Unit × DAG :=
  match lookupV g.vertices parentID with
  | none => (.error .vertexNotFound, g)
  | some parent =>
    match lookupV g.vertices childID with
    | none => (.error .vertexNotFound, g)
    | some child =>
      if g.wouldCreateCycle parent child then (.error .wouldCreateCycle, g)
      else
        let vs1 := updateV g.vertices parentID
          (fun p => { p with children := addId p.children childID })
        let vs2 := updateV vs1 childID
          (fun c => { c with parents := addId c.parents parentID })
        (.ok (), { vertices := vs2, roots := g.roots.erase childID })

/-- `dag.GetVertex(id)`. -/
def DAG.getVertex (g : DAG) (id : String) : Except DAGError Vertex :=
  match lookupV g.vertices id with
  | none => .error .vertexNotFound
  | some v => .ok v

/-- `dag.RemoveVertex(id)`: detach the vertex from its parents' child sets
and its children's parent sets, promote newly parentless children to roots,
then delete it. -/
def DAG.removeVertex (g : DAG) (id : String) : Except DAGError Unit × DAG :=
  match lookupV g.vertices id with
  | none => (.error .vertexNotFound, g)
  | some v =>
    let vs1 := v.parents.foldl
      (fun vs pid => updateV vs pid (fun p => { p with children := p.children.erase id }))
      g.vertices
    let step := v.children.foldl
      (fun (acc : List (String × Vertex) × List String) cid =>
        let vs' := updateV acc.1 cid (fun c => { c with parents := c.parents.erase id })
        let nowRoot := match lookupV vs' cid with
                       | some c => c.parents.isEmpty
                       | none => false
        (vs', if nowRoot then addId acc.2 cid else acc.2))
      (vs1, g.roots)
    (.ok (), { vertices := removeKey step.1 id, roots := step.2.erase id })

/-- `dag.GetRoots()`. -/
def DAG.getRoots (g : DAG) : List Vertex :=
  g.roots.filterMap (lookupV g.vertices)

/-- `dag.GetVertices()`. -/
def DAG.getVertices (g : DAG) : List Vertex :=
  g.vertices.map (·.2)

/-- The protocol parameters consumed by the modelled consensus logic
(`AvalancheParams`; the concurrency/batch/timeout knobs are never read by
the algorithms under verification and are omitted). -/
structure AvalancheParams where
  k : Nat
  alpha : Nat
  betaVirtuous : Nat
  betaRogue : Nat
deriving Repr, DecidableEq

/-- Source of the randomness consumed by one engine operation: `shuffle i`
supplies the random index drawn for position `i` of the Fisher-Yates
shuffle (reduced mod `i+1` as `rand.Int` guarantees), and `coin s` is the
outcome of the biased 70% coin flipped for sample `s` in
`checkPreference`. -/
structure Oracle where
  shuffle : Nat → Nat
  coin : String → Bool

/-- The consensus engine state, mirroring `consensus.Avalanche`: the DAG,
the parameters, the pending confidence counters and the finalized set. -/
structure Avalanche where
  dag : DAG
  params : AvalancheParams
  pending : List (String × Nat)
  finalized : List String
deriving Repr, DecidableEq

/-- `NewAvalanche`. -/
def Avalanche.new (d : DAG) (params : AvalancheParams) : Avalanche :=
  { dag := d, params := params, pending := [], finalized := [] }

/-- Association-list lookup for the pending map. -/
def lookupN : List (String × Nat) → String → Option Nat
  | [], _ => none
  | (k, n) :: rest, id => if k = id then some n else lookupN rest id

/-- Go map assignment `pending[id] = n`. -/
def setP : List (String × Nat) → String → Nat → List (String × Nat)
  | [], id, n => [(id, n)]
  | (k, m) :: rest, id, n =>
    if k = id then (k, n) :: rest else (k, m) :: setP rest id n

/-- Go map deletion `delete(pending, id)`. -/
def eraseP (ps : List (String × Nat)) (id : String) : List (String × Nat) :=
  ps.filter (fun p => p.1 ≠ id)

/-- `linkParents` models the edge-linking loop inside the engine's
`AddVertex`: link each listed parent in order, stopping at the first
error (the DAG is left as it was at the failure point, since `AddEdge`
does not mutate on error). -/
def linkParents (g : DAG) (id : String) : List String → Except DAGError Unit × DAG
  | [] => (.ok (), g)
  | pid :: rest =>
    match g.addEdge pid id with
    | (.error e, g') => (.error e, g')
    | (.ok _, g') => linkParents g' id rest

/-- The engine's `AddVertex(id, data, parentIDs)`: insert into the DAG,
link every parent, and register the id as pending with confidence 0; on
any edge failure remove the inserted vertex again and surface the error. -/
def Avalanche.addVertex (a : Avalanche) (id : String) (data : Nat)
    (parentIDs : List String) : Except DAGError Vertex × Avalanche :=
  match a.dag.addVertex id data with
  | (.error e, _) => (.error e, a)
  | (.ok _, g1) =>
    match linkParents g1 id parentIDs with
    | (.error e, g2) =>
      let g3 := (g2.removeVertex id).2
      (.error e, { a with dag := g3 })
    | (.ok _, g2) =>
      let result := match lookupV g2.vertices id with
                    | some v => v
                    | none => freshVertex id data
      (.ok result, { a with dag := g2, pending := setP a.pending id 0 })

/-- `areCompatible(v1, v2)`: compatible iff the payloads differ. -/
def Avalanche.areCompatible (_ : Avalanche) (v1 v2 : Vertex) : Bool :=
  v1.data ≠ v2.data

/-- `getConfidenceThreshold(id)`: `BetaRogue` when the vertex is missing or
some other vertex is incompatible with it, `BetaVirtuous` otherwise. -/
def Avalanche.getConfidenceThreshold (a : Avalanche) (id : String) : Nat :=
  match a.dag.getVertex id with
  | .error _ => a.params.betaRogue
  | .ok v =>
    if (a.dag.getVertices).any (fun other => decide (v.id ≠ other.id) && !(a.areCompatible v other))
    then a.params.betaRogue
    else a.params.betaVirtuous

/-- `checkPreference(sampleID, targetID)`: approve if the target is
finalized, or is an ancestor of the sample, or the sample carries the
preferred hint; otherwise flip the biased coin. -/
def Avalanche.checkPreference (a : Avalanche) (o : Oracle)
    (sampleID targetID : String) : Bool :=
  match a.dag.getVertex sampleID with
  | .error _ => false
  | .ok sampleVertex =>
    match a.dag.getVertex targetID with
    | .error _ => false
    | .ok targetVertex =>
      if targetVertex.finalized then true
      else if dfsParents a.dag.vertices targetID a.dag.fuel [sampleID] [] then true
      else if sampleVertex.preferred then true
      else o.coin sampleID

/-- One downward pass of the in-place Fisher-Yates shuffle: swap position
`i` with a random position `j ≤ i`, for `i` from `len-1` down to `1`. -/
def swapL (xs : List String) (i j : Nat) : List String :=
  match xs.get? i, xs.get? j with
  | some x, some y => (xs.set i y).set j x
  | _, _ => xs

/-- The shuffle loop of `getSamples`, with the random draws supplied by
`rnd` (reduced into range exactly as `rand.Int(i+1)` guarantees). -/
def fisherYates (rnd : Nat → Nat) : Nat → List String → List String
  | 0, xs => xs
  | Nat.succ i, xs => fisherYates rnd i (swapL xs (Nat.succ i) (rnd (Nat.succ i) % (Nat.succ i + 1)))

/-- The candidate list built by `getSamples`: the target's direct parents
first, then every other vertex that is neither the target nor one of those
parents. -/
def Avalanche.sampleCandidates (a : Avalanche) (vertex : Vertex) (id : String) :
    List String :=
  vertex.parents ++
    ((a.dag.getVertices.filter (fun v => v.id ≠ id ∧ v.id ∉ vertex.parents)).map (·.id))

/-- `getSamples(id, k)`: empty when the DAG holds fewer than `k` vertices
or the target is unknown; otherwise the candidate list is the target's
parents followed by every other vertex except the target and its parents,
returned whole when it has at most `k` entries and otherwise shuffled and
truncated to `k`. -/
def Avalanche.getSamples (a : Avalanche) (o : Oracle) (id : String) (k : Nat) :
    List String :=
  if a.dag.getVertices.length < k then []
  else
    match a.dag.getVertex id with
    | .error _ => []
    | .ok vertex =>
      let candidates := a.sampleCandidates vertex id
      if candidates.length ≤ k then candidates
      else (fisherYates o.shuffle (candidates.length - 1) candidates).take k

/-- The approval count of one `processVertex` round: how many of the drawn
samples answer `checkPreference` positively. -/
def Avalanche.approvals (a : Avalanche) (o : Oracle) (id : String) : Nat :=
  ((a.getSamples o id a.params.k).filter (fun s => a.checkPreference o s id)).length

/-- Set the `Finalized` flag of a DAG vertex if it exists (the
`GetVertex`-then-assign step of `processVertex`). -/
def setFinalized (g : DAG) (id : String) : DAG :=
  match lookupV g.vertices id with
  | none => g
  | some _ => { g with vertices := updateV g.vertices id (fun v => { v with finalized := true }) }

/-- `processVertex(id)`: skip finalized ids and rounds with no samples;
otherwise bump the counter on an `Alpha`-majority (finalizing when the
threshold is reached) and reset it to 0 on failure. -/
def Avalanche.processVertex (a : Avalanche) (o : Oracle) (id : String) : Avalanche :=
  if id ∈ a.finalized then a
  else
    let currentCount := (lookupN a.pending id).getD 0
    let samples := a.getSamples o id a.params.k
    if samples.length = 0 then a
    else
      let preferCount := (samples.filter (fun s => a.checkPreference o s id)).length
      if a.params.alpha ≤ preferCount then
        let a1 := { a with pending := setP a.pending id (currentCount + 1) }
        let threshold := a1.getConfidenceThreshold id
        if threshold ≤ currentCount + 1 then
          { a1 with finalized := addId a1.finalized id,
                    pending := eraseP a1.pending id,
                    dag := setFinalized a1.dag id }
        else a1
      else { a with pending := setP a.pending id 0 }

/-- `consensusRound()`: snapshot the pending ids, then process each one
(the per-id oracle supplies that call's randomness). -/
def Avalanche.consensusRound (a : Avalanche) (os : String → Oracle) : Avalanche :=
  let snapshot := a.pending.map (·.1)
  snapshot.foldl (fun acc id => acc.processVertex (os id) id) a

/-- `IsPending(id)`. -/
def Avalanche.isPending (a : Avalanche) (id : String) : Bool :=
  (lookupN a.pending id).isSome

/-- `IsFinalized(id)`. -/
def Avalanche.isFinalized (a : Avalanche) (id : String) : Bool :=
  id ∈ a.finalized

/-- One externally triggerable engine operation, for stating properties of
arbitrary operation sequences. -/
inductive EngineOp where
  | addVertex (id : String) (data : Nat) (parentIDs : List String)
  | processVertex (o : Oracle) (id : String)
  | consensusRound (os : String → Oracle)

/-- Apply one engine operation (discarding the returned value). -/
def applyOp (a : Avalanche) : EngineOp → Avalanche
  | .addVertex id data ps => (a.addVertex id data ps).2
  | .processVertex o id => a.processVertex o id
  | .consensusRound os => a.consensusRound os

/-- Apply a sequence of engine operations. -/
def applyOps (a : Avalanche) (ops : List EngineOp) : Avalanche :=
  ops.foldl applyOp a

/-- Decidable well-formedness of a DAG value, collecting the structural
invariants of §3 of the specification that every reachable store satisfies:
unique keys, each vertex records its own key as id, duplicate-free
parent/child id sets, no self-parent, and every referenced endpoint
present in the table. -/
def dagWF (g : DAG) : Bool :=
  decide ((g.vertices.map (·.1)).Nodup) &&
  g.vertices.all (fun kv =>
    decide (kv.2.id = kv.1) &&
    decide (kv.2.parents.Nodup) &&
    decide (kv.2.children.Nodup) &&
    kv.2.parents.all (fun p => decide (p ≠ kv.1) && (lookupV g.vertices p).isSome) &&
    kv.2.children.all (fun c => (lookupV g.vertices c).isSome))

/-- Decidable well-formedness of the consensus state: the pending map and
the finalized set are disjoint, and every id in either is present in the
DAG's vertex table. -/
def engineWF (a : Avalanche) : Bool :=
  a.pending.all (fun p =>
    !(decide (p.1 ∈ a.finalized)) && (lookupV a.dag.vertices p.1).isSome) &&
  a.finalized.all (fun id => (lookupV a.dag.vertices id).isSome)

/-- A DAG value contains a (parent-edge) cycle iff some vertex is reachable
from one of its own parents through parent edges. -/
def hasCycle (g : DAG) : Bool :=
  g.vertices.any (fun kv => dfsParents g.vertices kv.1 g.fuel kv.2.parents [])

/-! ## Basic facts about the association-list operations -/

theorem lookupV_updateV (vs : List (String × Vertex)) (id x : String) (f : Vertex → Vertex) :
    lookupV (updateV vs id f) x = if x = id then (lookupV vs id).map f else lookupV vs x := by
  induction vs with
  | nil => simp [lookupV, updateV]
  | cons kv rest ih =>
    obtain ⟨k, v⟩ := kv
    by_cases hk : k = id
    · subst hk
      by_cases hx : k = x
      · subst hx; simp [lookupV, updateV]
      · simp [lookupV, updateV, hx, Ne.symm hx]
    · by_cases hx : k = x
      · subst hx
        simp [lookupV, updateV, hk, Ne.symm hk]
      · simp [lookupV, updateV, hk, hx, ih]

theorem keys_updateV (vs : List (String × Vertex)) (id : String) (f : Vertex → Vertex) :
    (updateV vs id f).map (·.1) = vs.map (·.1) := by
  induction vs with
  | nil => simp [updateV]
  | cons kv rest ih =>
    obtain ⟨k, v⟩ := kv
    by_cases hk : k = id <;> simp [updateV, hk, ih]

theorem lookupV_append (vs ws : List (String × Vertex)) (x : String) :
    lookupV (vs ++ ws) x =
      match lookupV vs x with
      | some v => some v
      | none => lookupV ws x := by
  induction vs with
  | nil => simp [lookupV]
  | cons kv rest ih =>
    obtain ⟨k, v⟩ := kv
    by_cases hk : k = x <;> simp [lookupV, hk, ih]

theorem lookupV_removeKey (vs : List (String × Vertex)) (id x : String) :
    lookupV (removeKey vs id) x = if x = id then none else lookupV vs x := by
  induction vs with
  | nil => simp [lookupV, removeKey]
  | cons kv rest ih =>
    obtain ⟨k, v⟩ := kv
    by_cases hk : k = id
    · subst hk
      have : removeKey ((k, v) :: rest) k = removeKey rest k := by
        simp [removeKey]
      rw [this, ih]
      by_cases hx : x = k
      · subst hx; simp
      · simp [hx, lookupV, Ne.symm hx]
    · have : removeKey ((k, v) :: rest) id = (k, v) :: removeKey rest id := by
        simp [removeKey, hk]
      rw [this]
      by_cases hx : k = x
      · subst hx
        simp [lookupV, Ne.symm hk, hk]
      · simp [lookupV, hx, ih]

theorem lookupN_setP (ps : List (String × Nat)) (id x : String) (n : Nat) :
    lookupN (setP ps id n) x = if x = id then some n else lookupN ps x := by
  induction ps with
  | nil =>
    by_cases hx : x = id <;> simp [setP, lookupN, hx]
    exact fun h => absurd h.symm hx
  | cons p rest ih =>
    obtain ⟨k, m⟩ := p
    by_cases hk : k = id
    · subst hk
      by_cases hx : k = x
      · subst hx; simp [setP, lookupN]
      · simp [setP, lookupN, hx, Ne.symm hx]
    · by_cases hx : k = x
      · subst hx
        simp [setP, lookupN, hk, Ne.symm hk]
      · simp [setP, lookupN, hk, hx, ih]

theorem mem_setP {ps : List (String × Nat)} {id : String} {n : Nat} {q : String × Nat}
    (h : q ∈ setP ps id n) : q.1 = id ∨ q ∈ ps := by
  induction ps with
  | nil => simp [setP] at h; simp [h]
  | cons p rest ih =>
    obtain ⟨k, m⟩ := p
    by_cases hk : k = id
    · subst hk
      simp [setP] at h
      rcases h with h | h
      · simp [h]
      · right; simp [h]
    · simp [setP, hk] at h
      rcases h with h | h
      · right; simp [h]
      · rcases ih h with h' | h'
        · exact Or.inl h'
        · right; simp [h']

theorem lookupN_eraseP (ps : List (String × Nat)) (id x : String) :
    lookupN (eraseP ps id) x = if x = id then none else lookupN ps x := by
  induction ps with
  | nil => simp [eraseP, lookupN]
  | cons p rest ih =>
    obtain ⟨k, m⟩ := p
    by_cases hk : k = id
    · subst hk
      have : eraseP ((k, m) :: rest) k = eraseP rest k := by simp [eraseP]
      rw [this, ih]
      by_cases hx : x = k
      · subst hx; simp
      · simp [hx, lookupN, Ne.symm hx]
    · have : eraseP ((k, m) :: rest) id = (k, m) :: eraseP rest id := by
        simp [eraseP, hk]
      rw [this]
      by_cases hx : k = x
      · subst hx
        simp [lookupN, Ne.symm hk, hk]
      · simp [lookupN, hx, ih]

theorem mem_eraseP {ps : List (String × Nat)} {id : String} {q : String × Nat}
    (h : q ∈ eraseP ps id) : q ∈ ps ∧ q.1 ≠ id := by
  simp [eraseP] at h
  exact ⟨h.1, h.2⟩

theorem mem_addId_iff (l : List String) (x y : String) :
    x ∈ addId l y ↔ x ∈ l ∨ x = y := by
  by_cases hy : y ∈ l
  · simp only [addId, if_pos hy]
    constructor
    · exact Or.inl
    · rintro (h | rfl) <;> [exact h; exact hy]
  · simp [addId, hy]

theorem addId_nodup {l : List String} (h : l.Nodup) (y : String) : (addId l y).Nodup := by
  by_cases hy : y ∈ l
  · simpa [addId, hy] using h
  · simp only [addId, if_neg hy]
    exact List.Nodup.append h (List.nodup_singleton y)
      (fun a ha hay => hy ((List.mem_singleton.mp hay) ▸ ha))

theorem lookupV_mem {vs : List (String × Vertex)} {x : String} {w : Vertex}
    (h : lookupV vs x = some w) : (x, w) ∈ vs := by
  induction vs with
  | nil => simp [lookupV] at h
  | cons kv rest ih =>
    obtain ⟨k, v⟩ := kv
    by_cases hk : k = x
    · subst hk
      simp [lookupV] at h
      simp [h]
    · simp [lookupV, hk] at h
      simp [ih h]

theorem DAG.fuel_pos (g : DAG) : 0 < g.fuel := by
  have key : ∀ (l : List (String × Vertex)) (init : Nat),
      init ≤ l.foldl (fun a kv => a + 2 * kv.2.parents.length + 2) init := by
    intro l
    induction l with
    | nil => intro ini; simp
    | cons kv rest ih =>
      intro ini
      calc ini ≤ ini + 2 * kv.2.parents.length + 2 := by omega
        _ ≤ _ := ih _
  have := key g.vertices 2
  simp only [DAG.fuel]
  omega

theorem dfsParents_head_eq (vs : List (String × Vertex)) (t : String) {fuel : Nat}
    (h : 0 < fuel) (ws vis : List String) :
    dfsParents vs t fuel (t :: ws) vis = true := by
  cases fuel with
  | zero => omega
  | succ n => simp [dfsParents]

/-! ## Concrete example states used by evidence and witness theorems -/

/-- An oracle whose draws are irrelevant to the concrete scenarios below. -/
def oracle0 : Oracle := { shuffle := fun _ => 0, coin := fun _ => true }

/-- The S3 scenario DAG: vertices `a`, `b`, `c`, edges a→b and b→c. -/
def dagS3 : DAG :=
  (((((DAG.new.addVertex "a" 1).2.addVertex "b" 2).2.addVertex
      "c" 3).2.addEdge "a" "b").2.addEdge "b" "c").2

/-- Vertex `a` as stored in `dagAB`. -/
def vtxA : Vertex :=
  { id := "a", data := 1, parents := [], children := [], preferred := false, finalized := false }

/-- Vertex `b` as stored in `dagAB`, with the preferred hint set. -/
def vtxB : Vertex :=
  { id := "b", data := 2, parents := [], children := [], preferred := true, finalized := false }

/-- A two-vertex DAG with distinct payloads. -/
def dagAB : DAG := { vertices := [("a", vtxA), ("b", vtxB)], roots := ["a", "b"] }

/-! ## Claim theorems -/

/-- C1 (status: code_bug). The claim — matching the spec, the function's own
comment and the name `wouldCreateCycle` — requires that in the S3 scenario
(edges a→b and b→c present) `AddEdge(c, a)` returns `WouldCreateCycle` and
the DAG stays acyclic.  The code searches the DFS in the wrong direction
(from the candidate child through the child's ancestors looking for the
parent, instead of from the parent looking for the child), so the call
succeeds and creates the cycle a→b→c→a: evaluated here on the failing
input. -/
theorem c1_cycle_check_misses_cycle :
    (dagS3.addEdge "c" "a").1 = Except.ok () ∧
    (dagS3.addEdge "c" "a").1 ≠ Except.error DAGError.wouldCreateCycle ∧
    hasCycle dagS3 = false ∧
    hasCycle (dagS3.addEdge "c" "a").2 = true := by
  have h : (dagS3.addEdge "c" "a").1 = Except.ok () := rfl
  refine ⟨h, ?_, by decide, by decide⟩
  rw [h]
  exact fun h' => Except.noConfusion h'

/-- C7 (status: confirmed). Calling the DAG's `AddVertex` with an id that is
already present returns `AlreadyExists` and mutates nothing: the store value
is returned unchanged, so the stored vertex keeps its data, parents and
children, and the vertex and root sets are untouched. -/
theorem c7_duplicate_addVertex (g : DAG) (id : String) (v : Vertex) (d' : Nat)
    (h : lookupV g.vertices id = some v) :
    (g.addVertex id d').1 = Except.error DAGError.vertexAlreadyExists ∧
    (g.addVertex id d').2 = g ∧
    lookupV (g.addVertex id d').2.vertices id = some v := by
  simp [DAG.addVertex, h]

/-- Witness for C7 at a concrete input: re-inserting `"a"` into the S3 DAG
with different data fails and leaves the stored vertex intact. -/
theorem c7_duplicate_addVertex_witness :
    (dagS3.addVertex "a" 99).1 = Except.error DAGError.vertexAlreadyExists ∧
    (dagS3.addVertex "a" 99).2 = dagS3 ∧
    lookupV (dagS3.addVertex "a" 99).2.vertices "a" =
      some { id := "a", data := 1, parents := [], children := ["b"],
             preferred := false, finalized := false } :=
  c7_duplicate_addVertex dagS3 "a"
    { id := "a", data := 1, parents := [], children := ["b"],
      preferred := false, finalized := false } 99 (by decide)

/-- A self edge is always rejected by the cycle check: the DFS starts at
the child's id, which equals the parent's id. -/
theorem addEdge_self_eq (g : DAG) (id : String) (v : Vertex)
    (h : lookupV g.vertices id = some v) :
    g.addEdge id id = (Except.error DAGError.wouldCreateCycle, g) := by
  have hc : g.wouldCreateCycle v v = true :=
    dfsParents_head_eq g.vertices v.id (DAG.fuel_pos g) [] []
  simp [DAG.addEdge, h, hc]

/-- C10 (status: confirmed). For an id present in the DAG, the self edge
`AddEdge(id, id)` is always rejected as `WouldCreateCycle` and leaves the
DAG value completely unchanged (the DFS starts at the child's id and
immediately meets the parent's id). -/
theorem c10_self_edge_rejected (g : DAG) (id : String) (v : Vertex)
    (h : lookupV g.vertices id = some v) :
    (g.addEdge id id).1 = Except.error DAGError.wouldCreateCycle ∧
    (g.addEdge id id).2 = g := by
  rw [addEdge_self_eq g id v h]
  exact ⟨rfl, rfl⟩

/-- Witness for C10 at a concrete input: the self edge on `"a"` in the S3
DAG is rejected and nothing changes. -/
theorem c10_self_edge_rejected_witness :
    (dagS3.addEdge "a" "a").1 = Except.error DAGError.wouldCreateCycle ∧
    (dagS3.addEdge "a" "a").2 = dagS3 :=
  c10_self_edge_rejected dagS3 "a"
    { id := "a", data := 1, parents := [], children := ["b"],
      preferred := false, finalized := false } (by decide)

/-- C6 (status: confirmed). For a vertex present in the DAG, the
finalization threshold is `β_r` when some other vertex conflicts with it
and `β_v` when none does, where `v` conflicts with `w` iff `v.id ≠ w.id`
and `v.data = w.data` (the negation of `areCompatible`). -/
theorem c6_threshold_conflict (a : Avalanche) (id : String) (v : Vertex)
    (h : lookupV a.dag.vertices id = some v) :
    ((∃ w ∈ a.dag.getVertices, v.id ≠ w.id ∧ v.data = w.data) →
        a.getConfidenceThreshold id = a.params.betaRogue) ∧
    ((∀ w ∈ a.dag.getVertices, v.id = w.id ∨ v.data ≠ w.data) →
        a.getConfidenceThreshold id = a.params.betaVirtuous) := by
  have hv : a.dag.getVertex id = Except.ok v := by simp [DAG.getVertex, h]
  have hpred : ∀ w : Vertex,
      (decide (v.id ≠ w.id) && !(a.areCompatible v w)) = true ↔
        (v.id ≠ w.id ∧ v.data = w.data) := by
    intro w
    simp [Avalanche.areCompatible, Decidable.not_not]
  constructor
  · rintro ⟨w, hw, hne, heq⟩
    have hany : (a.dag.getVertices).any
        (fun other => decide (v.id ≠ other.id) && !(a.areCompatible v other)) = true :=
      List.any_eq_true.mpr ⟨w, hw, (hpred w).mpr ⟨hne, heq⟩⟩
    simp only [Avalanche.getConfidenceThreshold, hv, hany, if_true]
  · intro hall
    have hany : (a.dag.getVertices).any
        (fun other => decide (v.id ≠ other.id) && !(a.areCompatible v other)) = false := by
      rw [← Bool.not_eq_true]
      intro hcon
      obtain ⟨w, hw, hwp⟩ := List.any_eq_true.mp hcon
      obtain ⟨hne, heq⟩ := (hpred w).mp hwp
      rcases hall w hw with h1 | h1
      · exact hne h1
      · exact h1 heq
    simp only [Avalanche.getConfidenceThreshold, hv, hany, Bool.false_eq_true, if_false]

/-- Vertex `x` of the conflicting pair used for the C6 witness. -/
def vtxX : Vertex :=
  { id := "x", data := 7, parents := [], children := [], preferred := false, finalized := false }

/-- Vertex `y`: same payload as `x`, hence conflicting. -/
def vtxY : Vertex :=
  { id := "y", data := 7, parents := [], children := [], preferred := false, finalized := false }

/-- Engine holding the conflicting pair `x`, `y`. -/
def engC6 : Avalanche :=
  { dag := { vertices := [("x", vtxX), ("y", vtxY)], roots := ["x", "y"] },
    params := { k := 10, alpha := 8, betaVirtuous := 20, betaRogue := 30 },
    pending := [("x", 0), ("y", 0)], finalized := [] }

/-- Witness for C6: `x` conflicts with `y` (same payload), so its
threshold is the rogue one. -/
theorem c6_threshold_conflict_witness :
    engC6.getConfidenceThreshold "x" = engC6.params.betaRogue :=
  (c6_threshold_conflict engC6 "x" vtxX (by decide)).1
    ⟨vtxY, by decide, by decide, by decide⟩

/-- Engine for the C5 counterexample: K = 2 but the DAG holds exactly two
vertices, so only one candidate is available for target `a`. -/
def engC5 : Avalanche :=
  { dag := dagAB,
    params := { k := 2, alpha := 1, betaVirtuous := 5, betaRogue := 7 },
    pending := [("a", 0)], finalized := [] }

/-- C5 counterexample: the sampler returns fewer than K (namely 1) sample
ids for pending vertex `a`, yet `processVertex` does not skip the round -
the confidence counter moves from 0 to 1, refuting the claim that a sub-K
sample leaves the counter unchanged.  (Sample `b` carries the preferred
hint, so no random branch is involved.) -/
theorem c5_skip_counterexample :
    (engC5.getSamples oracle0 "a" engC5.params.k).length < engC5.params.k ∧
    (engC5.getSamples oracle0 "a" engC5.params.k).length ≠ 0 ∧
    lookupN engC5.pending "a" = some 0 ∧
    lookupN (engC5.processVertex oracle0 "a").pending "a" = some 1 :=
  ⟨by decide, by decide, by decide, by decide⟩

/-- C5 amended (status: corrected): `processVertex` skips the round —
leaving the whole engine state, in particular the confidence counter,
unchanged — exactly when the sampler returns zero ids; a non-empty sample
of fewer than K ids is still processed. -/
theorem c5_skip_amended (a : Avalanche) (o : Oracle) (id : String)
    (h : a.getSamples o id a.params.k = []) :
    a.processVertex o id = a := by
  by_cases hf : id ∈ a.finalized
  · simp [Avalanche.processVertex, hf]
  · simp [Avalanche.processVertex, hf, h]

/-- Engine for the C5 witness: empty DAG, so the sampler returns nothing. -/
def engC5e : Avalanche :=
  { dag := DAG.new,
    params := { k := 1, alpha := 1, betaVirtuous := 5, betaRogue := 7 },
    pending := [("z", 0)], finalized := [] }

/-- Witness for the amended C5: zero samples, `processVertex` is the
identity. -/
theorem c5_skip_amended_witness :
    engC5e.getSamples oracle0 "z" engC5e.params.k = [] ∧
    engC5e.processVertex oracle0 "z" = engC5e :=
  ⟨by decide, c5_skip_amended engC5e oracle0 "z" (by decide)⟩

/-- Engine for the C4 counterexample (same two-vertex DAG, K = 2). -/
def engC4 : Avalanche :=
  { dag := dagAB,
    params := { k := 2, alpha := 1, betaVirtuous := 5, betaRogue := 7 },
    pending := [], finalized := [] }

/-- C4 counterexample: target `a` is present, K = 2 > 0, the DAG holds
exactly K vertices so only K−1 = 1 candidate is available — fewer than K —
yet the sampler returns `["b"]`, not the empty sequence the claim
requires. -/
theorem c4_sampler_counterexample :
    (0 : Nat) < 2 ∧
    (lookupV engC4.dag.vertices "a").isSome = true ∧
    ¬ (engC4.dag.getVertices.length < 2) ∧
    (engC4.sampleCandidates vtxA "a").length < 2 ∧
    engC4.getSamples oracle0 "a" 2 = ["b"] :=
  ⟨by decide, by decide, by decide, by decide, by decide⟩

/-- The threshold computation reads only the DAG and the parameters, never
the pending map. -/
theorem getConfidenceThreshold_pending_irrel (a : Avalanche) (ps : List (String × Nat))
    (id : String) :
    ({ a with pending := ps } : Avalanche).getConfidenceThreshold id =
      a.getConfidenceThreshold id := rfl

/-- A non-empty sample list implies the target id is present in the DAG. -/
theorem getSamples_ne_nil_lookup (a : Avalanche) (o : Oracle) (id : String) (k : Nat)
    (h : a.getSamples o id k ≠ []) : ∃ v, lookupV a.dag.vertices id = some v := by
  by_cases hlt : a.dag.getVertices.length < k
  · simp [Avalanche.getSamples, hlt] at h
  · cases hv : lookupV a.dag.vertices id with
    | none =>
      exfalso
      exact h (by simp [Avalanche.getSamples, hlt, DAG.getVertex, hv])
    | some v => exact ⟨v, rfl⟩

/-- Closed form of one `processVertex` step on a non-finalized id with a
non-empty sample: the three-way outcome by approval count and threshold. -/
theorem processVertex_eq (a : Avalanche) (o : Oracle) (id : String)
    (h1 : id ∉ a.finalized) (h3 : a.getSamples o id a.params.k ≠ []) :
    a.processVertex o id =
      if a.params.alpha ≤ a.approvals o id then
        if a.getConfidenceThreshold id ≤ (lookupN a.pending id).getD 0 + 1 then
          { a with pending := eraseP (setP a.pending id ((lookupN a.pending id).getD 0 + 1)) id,
                   finalized := addId a.finalized id,
                   dag := setFinalized a.dag id }
        else { a with pending := setP a.pending id ((lookupN a.pending id).getD 0 + 1) }
      else { a with pending := setP a.pending id 0 } := by
  have hlen : ¬ ((a.getSamples o id a.params.k).length = 0) := by
    simpa [List.length_eq_zero] using h3
  simp only [Avalanche.processVertex, Avalanche.approvals]
  rw [if_neg h1, if_neg hlen]
  rfl

/-- C3 (status: confirmed). For a pending, non-finalized id processed in a
round with current confidence `c` and a non-empty sample: an approval count
of at least α advances the counter to exactly `c + 1`; when `c + 1` reaches
the threshold the id leaves pending, enters finalized, and the DAG vertex's
finalized flag is set; below α the counter is reset to exactly 0; and the
counter never exceeds `c + 1` after the round. -/
theorem c3_processVertex_counter_update (a : Avalanche) (o : Oracle) (id : String) (c : Nat)
    (h1 : id ∉ a.finalized)
    (h2 : lookupN a.pending id = some c)
    (h3 : a.getSamples o id a.params.k ≠ []) :
    (a.params.alpha ≤ a.approvals o id →
      (c + 1 < a.getConfidenceThreshold id →
        lookupN (a.processVertex o id).pending id = some (c + 1) ∧
        id ∉ (a.processVertex o id).finalized) ∧
      (a.getConfidenceThreshold id ≤ c + 1 →
        lookupN (a.processVertex o id).pending id = none ∧
        id ∈ (a.processVertex o id).finalized ∧
        ∃ v, lookupV (a.processVertex o id).dag.vertices id = some v ∧ v.finalized = true)) ∧
    (a.approvals o id < a.params.alpha →
      lookupN (a.processVertex o id).pending id = some 0) ∧
    (∀ n, lookupN (a.processVertex o id).pending id = some n → n ≤ c + 1) := by
  obtain ⟨v0, hv0⟩ := getSamples_ne_nil_lookup a o id a.params.k h3
  have heq := processVertex_eq a o id h1 h3
  rw [h2] at heq
  simp only [Option.getD_some] at heq
  by_cases hA : a.params.alpha ≤ a.approvals o id
  · by_cases hT : a.getConfidenceThreshold id ≤ c + 1
    · rw [if_pos hA, if_pos hT] at heq
      refine ⟨fun _ => ⟨fun hlt => absurd hT (by omega), fun _ => ?_⟩,
              fun hlt => absurd hA (by omega), fun n hn => ?_⟩
      · refine ⟨?_, ?_, ?_⟩
        · rw [heq]; simp [lookupN_eraseP]
        · rw [heq]; exact (mem_addId_iff _ id id).mpr (Or.inr rfl)
        · refine ⟨{ v0 with finalized := true }, ?_, rfl⟩
          rw [heq]
          simp [setFinalized, hv0, lookupV_updateV]
      · rw [heq] at hn; simp [lookupN_eraseP] at hn
    · rw [if_pos hA, if_neg hT] at heq
      refine ⟨fun _ => ⟨fun _ => ⟨?_, ?_⟩, fun hle => absurd hle hT⟩,
              fun hlt => absurd hA (by omega), fun n hn => ?_⟩
      · rw [heq]; simp [lookupN_setP]
      · rw [heq]; exact h1
      · rw [heq] at hn; simp [lookupN_setP] at hn; omega
  · rw [if_neg hA] at heq
    refine ⟨fun hA' => absurd hA' hA, fun _ => ?_, fun n hn => ?_⟩
    · rw [heq]; simp [lookupN_setP]
    · rw [heq] at hn; simp [lookupN_setP] at hn; omega

/-- Engine for the C3 witness: one pending vertex, sample approves via the
preferred hint, counter far from threshold. -/
def engC3 : Avalanche :=
  { dag := dagAB,
    params := { k := 1, alpha := 1, betaVirtuous := 5, betaRogue := 7 },
    pending := [("a", 0)], finalized := [] }

/-- Witness for C3: a successful round advances the counter from 0 to
exactly 1 and does not finalize. -/
theorem c3_processVertex_counter_update_witness :
    lookupN (engC3.processVertex oracle0 "a").pending "a" = some (0 + 1) ∧
    "a" ∉ (engC3.processVertex oracle0 "a").finalized :=
  ((c3_processVertex_counter_update engC3 oracle0 "a" 0 (by decide) (by decide)
      (by decide)).1 (by decide)).1 (by decide)

/-! ## Domain preservation lemmas for the engine invariants -/

theorem lookupV_append_left {vs ws : List (String × Vertex)} {x : String} {v : Vertex}
    (h : lookupV vs x = some v) : lookupV (vs ++ ws) x = some v := by
  rw [lookupV_append, h]

theorem lookupV_append_right {vs ws : List (String × Vertex)} {x : String}
    (h : lookupV vs x = none) : lookupV (vs ++ ws) x = lookupV ws x := by
  rw [lookupV_append, h]

theorem lookupN_mem {ps : List (String × Nat)} {x : String} {n : Nat}
    (h : lookupN ps x = some n) : (x, n) ∈ ps := by
  induction ps with
  | nil => simp [lookupN] at h
  | cons p rest ih =>
    obtain ⟨k, m⟩ := p
    by_cases hk : k = x
    · subst hk
      simp [lookupN] at h
      simp [h]
    · simp [lookupN, hk] at h
      simp [ih h]

theorem addEdge_lookup_isSome (g : DAG) (p c x : String) :
    (lookupV (g.addEdge p c).2.vertices x).isSome = (lookupV g.vertices x).isSome := by
  cases hp : lookupV g.vertices p with
  | none => simp [DAG.addEdge, hp]
  | some pv =>
    cases hc : lookupV g.vertices c with
    | none => simp [DAG.addEdge, hp, hc]
    | some cv =>
      by_cases hcy : g.wouldCreateCycle pv cv
      · simp [DAG.addEdge, hp, hc, hcy]
      · simp only [DAG.addEdge, hp, hc, hcy, Bool.false_eq_true, if_false]
        simp only [lookupV_updateV]
        by_cases h1 : x = c
        · subst h1
          by_cases h2 : x = p
          · subst h2; simp [hp, hc]
          · simp [h2, hp, hc]
        · by_cases h2 : x = p
          · subst h2; simp [h1, hp]
          · simp [h1, h2]

theorem linkParents_lookup_isSome (ps : List String) (g : DAG) (id x : String) :
    (lookupV (linkParents g id ps).2.vertices x).isSome = (lookupV g.vertices x).isSome := by
  induction ps generalizing g with
  | nil => rfl
  | cons pid rest ih =>
    have hae := addEdge_lookup_isSome g pid id x
    simp only [linkParents]
    rcases he : g.addEdge pid id with ⟨r, g'⟩
    rw [he] at hae
    cases r with
    | error e => simpa using hae
    | ok u => exact (ih g').trans hae

theorem foldl_pair_fst (l : List String) (vs0 : List (String × Vertex))
    (rs0 : List String) (id : String) :
    (l.foldl (fun (acc : List (String × Vertex) × List String) cid =>
        let vs' := updateV acc.1 cid (fun c => { c with parents := c.parents.erase id })
        let nowRoot := match lookupV vs' cid with
                       | some c => c.parents.isEmpty
                       | none => false
        (vs', if nowRoot then addId acc.2 cid else acc.2)) (vs0, rs0)).1
    = l.foldl (fun vs cid =>
        updateV vs cid (fun c => { c with parents := c.parents.erase id })) vs0 := by
  induction l generalizing vs0 rs0 with
  | nil => rfl
  | cons cid rest ih =>
    simp only [List.foldl_cons]
    exact ih _ _

theorem foldl_updateV_lookup_isSome (l : List String) (f : Vertex → Vertex)
    (vs : List (String × Vertex)) (x : String) :
    (lookupV (l.foldl (fun vs y => updateV vs y f) vs) x).isSome =
      (lookupV vs x).isSome := by
  induction l generalizing vs with
  | nil => rfl
  | cons y rest ih =>
    simp only [List.foldl_cons]
    rw [ih]
    rw [lookupV_updateV]
    by_cases h : x = y
    · subst h; simp
    · simp [h]

theorem removeVertex_lookup_isSome (g : DAG) (id x : String) :
    (lookupV (g.removeVertex id).2.vertices x).isSome =
      if x = id then false else (lookupV g.vertices x).isSome := by
  cases hv : lookupV g.vertices id with
  | none =>
    simp only [DAG.removeVertex, hv]
    by_cases h : x = id
    · subst h; simp [hv]
    · simp [h]
  | some v =>
    simp only [DAG.removeVertex, hv]
    rw [lookupV_removeKey]
    by_cases h : x = id
    · simp [h]
    · rw [if_neg h, if_neg h, foldl_pair_fst, foldl_updateV_lookup_isSome,
          foldl_updateV_lookup_isSome]

theorem setFinalized_lookup_isSome (g : DAG) (id x : String) :
    (lookupV (setFinalized g id).vertices x).isSome = (lookupV g.vertices x).isSome := by
  unfold setFinalized
  cases h : lookupV g.vertices id with
  | none => rfl
  | some v =>
    simp only [lookupV_updateV]
    by_cases h1 : x = id
    · subst h1; simp [h]
    · simp [h1]

theorem engineWF_iff (a : Avalanche) :
    engineWF a = true ↔
      ((∀ p ∈ a.pending, p.1 ∉ a.finalized ∧ (lookupV a.dag.vertices p.1).isSome = true) ∧
       (∀ id ∈ a.finalized, (lookupV a.dag.vertices id).isSome = true)) := by
  simp [engineWF, List.all_eq_true, Bool.and_eq_true, Bool.not_eq_true',
    decide_eq_false_iff_not]

theorem lookupV_insertFresh (g : DAG) (id : String) (data : Nat) (x : String)
    (hd : lookupV g.vertices id = none) :
    lookupV (insertFresh g id data).vertices x =
      if x = id then some (freshVertex id data) else lookupV g.vertices x := by
  by_cases hx : x = id
  · subst hx
    simp only [insertFresh, if_pos rfl]
    rw [lookupV_append, hd]
    simp [lookupV]
  · simp only [insertFresh, if_neg hx]
    rw [lookupV_append]
    cases hl : lookupV g.vertices x with
    | some w => simp
    | none => simp [lookupV, Ne.symm hx]

/-- Well-formedness of the consensus state is preserved by the engine's
`AddVertex`. -/
theorem wf_addVertex (a : Avalanche) (id : String) (data : Nat) (ps : List String)
    (h : engineWF a = true) : engineWF (a.addVertex id data ps).2 = true := by
  obtain ⟨hp, hf⟩ := (engineWF_iff a).mp h
  cases hd : lookupV a.dag.vertices id with
  | some v =>
    have hst : (a.addVertex id data ps).2 = a := by
      simp [Avalanche.addVertex, DAG.addVertex, hd]
    rwa [hst]
  | none =>
    have hIdNotFin : id ∉ a.finalized := by
      intro hmem
      have := hf id hmem
      rw [hd] at this
      simp at this
    simp only [Avalanche.addVertex, DAG.addVertex, hd]
    rcases hl : linkParents (insertFresh a.dag id data) id ps with ⟨r, g2⟩
    have hdom : ∀ x, (lookupV g2.vertices x).isSome =
        (lookupV (insertFresh a.dag id data).vertices x).isSome := by
      intro x
      have := linkParents_lookup_isSome ps (insertFresh a.dag id data) id x
      rw [hl] at this
      exact this
    cases r with
    | ok u =>
      apply (engineWF_iff _).mpr
      constructor
      · intro q hq
        rcases mem_setP hq with h1 | h1
        · refine ⟨fun hmem => hIdNotFin (h1 ▸ hmem), ?_⟩
          rw [h1, hdom, lookupV_insertFresh _ _ _ _ hd]
          simp
        · obtain ⟨hnf, hsome⟩ := hp q h1
          refine ⟨hnf, ?_⟩
          rw [hdom, lookupV_insertFresh _ _ _ _ hd]
          by_cases hqi : q.1 = id
          · simp [hqi]
          · rwa [if_neg hqi]
      · intro y hy
        have hsome := hf y hy
        rw [hdom, lookupV_insertFresh _ _ _ _ hd]
        by_cases hyi : y = id
        · simp [hyi]
        · rwa [if_neg hyi]
    | error e =>
      apply (engineWF_iff _).mpr
      constructor
      · intro q hq
        obtain ⟨hnf, hsome⟩ := hp q hq
        refine ⟨hnf, ?_⟩
        have hqi : q.1 ≠ id := by
          intro hcon
          rw [hcon, hd] at hsome
          simp at hsome
        rw [removeVertex_lookup_isSome, if_neg hqi, hdom,
            lookupV_insertFresh _ _ _ _ hd, if_neg hqi]
        exact hsome
      · intro y hy
        have hsome := hf y hy
        have hyi : y ≠ id := by
          intro hcon
          rw [hcon, hd] at hsome
          simp at hsome
        rw [removeVertex_lookup_isSome, if_neg hyi, hdom,
            lookupV_insertFresh _ _ _ _ hd, if_neg hyi]
        exact hsome

/-- Well-formedness of the consensus state is preserved by `processVertex`. -/
theorem wf_processVertex (a : Avalanche) (o : Oracle) (id : String)
    (h : engineWF a = true) : engineWF (a.processVertex o id) = true := by
  by_cases hfin : id ∈ a.finalized
  · have hst : a.processVertex o id = a := by simp [Avalanche.processVertex, hfin]
    rwa [hst]
  · by_cases hsamp : a.getSamples o id a.params.k = []
    · have hst : a.processVertex o id = a := by
        simp [Avalanche.processVertex, hfin, hsamp]
      rwa [hst]
    · obtain ⟨v0, hv0⟩ := getSamples_ne_nil_lookup a o id a.params.k hsamp
      have heq := processVertex_eq a o id hfin hsamp
      obtain ⟨hp, hf⟩ := (engineWF_iff a).mp h
      by_cases hA : a.params.alpha ≤ a.approvals o id
      · by_cases hT : a.getConfidenceThreshold id ≤ (lookupN a.pending id).getD 0 + 1
        · rw [if_pos hA, if_pos hT] at heq
          rw [heq]
          apply (engineWF_iff _).mpr
          constructor
          · intro q hq
            obtain ⟨hq1, hq2⟩ := mem_eraseP hq
            rcases mem_setP hq1 with h1 | h1
            · exact absurd h1 hq2
            · obtain ⟨hnf, hsome⟩ := hp q h1
              constructor
              · intro hmem
                rcases (mem_addId_iff _ _ _).mp hmem with hmem | hmem
                · exact hnf hmem
                · exact hq2 hmem
              · rw [setFinalized_lookup_isSome]
                exact hsome
          · intro y hy
            rcases (mem_addId_iff _ _ _).mp hy with hy | hy
            · rw [setFinalized_lookup_isSome]
              exact hf y hy
            · subst hy
              rw [setFinalized_lookup_isSome, hv0]
              rfl
        · rw [if_pos hA, if_neg hT] at heq
          rw [heq]
          apply (engineWF_iff _).mpr
          refine ⟨?_, hf⟩
          intro q hq
          rcases mem_setP hq with h1 | h1
          · refine ⟨fun hmem => hfin (h1 ▸ hmem), ?_⟩
            rw [h1, hv0]
            rfl
          · exact hp q h1
      · rw [if_neg hA] at heq
        rw [heq]
        apply (engineWF_iff _).mpr
        refine ⟨?_, hf⟩
        intro q hq
        rcases mem_setP hq with h1 | h1
        · refine ⟨fun hmem => hfin (h1 ▸ hmem), ?_⟩
          rw [h1, hv0]
          rfl
        · exact hp q h1

/-- Well-formedness is preserved by any run of `processVertex` over a list
of ids (the body of `consensusRound`). -/
theorem wf_foldl_process (ids : List String) (os : String → Oracle) (a : Avalanche)
    (h : engineWF a = true) :
    engineWF (ids.foldl (fun acc id => acc.processVertex (os id) id) a) = true := by
  induction ids generalizing a with
  | nil => exact h
  | cons i rest ih =>
    simp only [List.foldl_cons]
    exact ih _ (wf_processVertex a (os i) i h)

/-- Well-formedness of the consensus state is preserved by a whole
consensus round. -/
theorem wf_consensusRound (a : Avalanche) (os : String → Oracle)
    (h : engineWF a = true) : engineWF (a.consensusRound os) = true :=
  wf_foldl_process _ os a h

/-- Well-formedness is preserved by every engine operation. -/
theorem wf_applyOp (a : Avalanche) (op : EngineOp) (h : engineWF a = true) :
    engineWF (applyOp a op) = true := by
  cases op with
  | addVertex id data ps => exact wf_addVertex a id data ps h
  | processVertex o id => exact wf_processVertex a o id h
  | consensusRound os => exact wf_consensusRound a os h

/-- C8 (status: confirmed). The consensus state is well formed after every
engine operation: starting from a well-formed state, `AddVertex`,
`processVertex` and `consensusRound` each leave the pending map and the
finalized set disjoint with every id of either present in the DAG's vertex
table. -/
theorem c8_wellformed_preserved (a : Avalanche) (h : engineWF a = true) :
    (∀ id data ps, engineWF (a.addVertex id data ps).2 = true) ∧
    (∀ o id, engineWF (a.processVertex o id) = true) ∧
    (∀ os, engineWF (a.consensusRound os) = true) :=
  ⟨fun id data ps => wf_addVertex a id data ps h,
   fun o id => wf_processVertex a o id h,
   fun os => wf_consensusRound a os h⟩

/-- Witness for C8 at a concrete well-formed engine: all three operations
preserve well-formedness. -/
theorem c8_wellformed_preserved_witness :
    engineWF (engC3.addVertex "w" 3 ["a"]).2 = true ∧
    engineWF (engC3.processVertex oracle0 "a") = true ∧
    engineWF (engC3.consensusRound (fun _ => oracle0)) = true :=
  ⟨(c8_wellformed_preserved engC3 (by decide)).1 "w" 3 ["a"],
   (c8_wellformed_preserved engC3 (by decide)).2.1 oracle0 "a",
   (c8_wellformed_preserved engC3 (by decide)).2.2 (fun _ => oracle0)⟩

/-! ## Monotonicity of finalization -/

/-- The DAG vertex stored at `x` exists and carries a true finalized flag. -/
def flagTrue (vs : List (String × Vertex)) (x : String) : Prop :=
  ∃ v, lookupV vs x = some v ∧ v.finalized = true

theorem flagTrue_updateV {vs : List (String × Vertex)} {x : String} (y : String)
    (f : Vertex → Vertex)
    (hf : ∀ v, (f v).finalized = v.finalized ∨ (f v).finalized = true)
    (h : flagTrue vs x) : flagTrue (updateV vs y f) x := by
  obtain ⟨v, hv, hvf⟩ := h
  by_cases hxy : x = y
  · subst hxy
    refine ⟨f v, ?_, ?_⟩
    · rw [lookupV_updateV, if_pos rfl, hv]
      rfl
    · rcases hf v with h1 | h1
      · rw [h1, hvf]
      · exact h1
  · exact ⟨v, by rw [lookupV_updateV, if_neg hxy]; exact hv, hvf⟩

theorem flagTrue_addEdge (g : DAG) (p c x : String) (h : flagTrue g.vertices x) :
    flagTrue (g.addEdge p c).2.vertices x := by
  cases hp : lookupV g.vertices p with
  | none => simpa [DAG.addEdge, hp] using h
  | some pv =>
    cases hc : lookupV g.vertices c with
    | none => simpa [DAG.addEdge, hp, hc] using h
    | some cv =>
      by_cases hcy : g.wouldCreateCycle pv cv
      · simpa [DAG.addEdge, hp, hc, hcy] using h
      · simp only [DAG.addEdge, hp, hc, hcy, Bool.false_eq_true, if_false]
        exact flagTrue_updateV c _ (fun v => Or.inl rfl)
          (flagTrue_updateV p _ (fun v => Or.inl rfl) h)

theorem flagTrue_linkParents (ps : List String) (g : DAG) (id x : String)
    (h : flagTrue g.vertices x) : flagTrue (linkParents g id ps).2.vertices x := by
  induction ps generalizing g with
  | nil => exact h
  | cons pid rest ih =>
    have hae := flagTrue_addEdge g pid id x h
    simp only [linkParents]
    rcases he : g.addEdge pid id with ⟨r, g'⟩
    rw [he] at hae
    cases r with
    | error e => exact hae
    | ok u => exact ih g' hae

theorem flagTrue_foldl_updateV (l : List String) (f : Vertex → Vertex)
    (hf : ∀ v, (f v).finalized = v.finalized ∨ (f v).finalized = true)
    (vs : List (String × Vertex)) (x : String) (h : flagTrue vs x) :
    flagTrue (l.foldl (fun vs y => updateV vs y f) vs) x := by
  induction l generalizing vs with
  | nil => exact h
  | cons y rest ih =>
    simp only [List.foldl_cons]
    exact ih _ (flagTrue_updateV y f hf h)

theorem flagTrue_removeVertex (g : DAG) (id x : String) (hne : x ≠ id)
    (h : flagTrue g.vertices x) : flagTrue (g.removeVertex id).2.vertices x := by
  cases hv : lookupV g.vertices id with
  | none => simpa [DAG.removeVertex, hv] using h
  | some v =>
    simp only [DAG.removeVertex, hv]
    rw [foldl_pair_fst]
    have h1 := flagTrue_foldl_updateV v.parents
      (fun p => { p with children := p.children.erase id }) (fun _ => Or.inl rfl)
      g.vertices x h
    have h2 := flagTrue_foldl_updateV v.children
      (fun c => { c with parents := c.parents.erase id }) (fun _ => Or.inl rfl)
      _ x h1
    obtain ⟨w, hw, hwf⟩ := h2
    exact ⟨w, by rw [lookupV_removeKey, if_neg hne]; exact hw, hwf⟩

theorem flagTrue_setFinalized (g : DAG) (id x : String) (h : flagTrue g.vertices x) :
    flagTrue (setFinalized g id).vertices x := by
  unfold setFinalized
  cases hv : lookupV g.vertices id with
  | none => exact h
  | some v => exact flagTrue_updateV id _ (fun _ => Or.inr rfl) h

theorem flagTrue_engine_addVertex (a : Avalanche) (id : String) (data : Nat)
    (ps : List String) (x : String) (h : flagTrue a.dag.vertices x) :
    flagTrue (a.addVertex id data ps).2.dag.vertices x := by
  cases hd : lookupV a.dag.vertices id with
  | some v =>
    have hst : (a.addVertex id data ps).2 = a := by
      simp [Avalanche.addVertex, DAG.addVertex, hd]
    rwa [hst]
  | none =>
    have hne : x ≠ id := by
      intro hcon
      obtain ⟨w, hw, _⟩ := h
      rw [hcon, hd] at hw
      exact Option.noConfusion hw
    have hins : flagTrue (insertFresh a.dag id data).vertices x := by
      obtain ⟨w, hw, hwf⟩ := h
      exact ⟨w, by rw [lookupV_insertFresh _ _ _ _ hd, if_neg hne]; exact hw, hwf⟩
    simp only [Avalanche.addVertex, DAG.addVertex, hd]
    rcases hl : linkParents (insertFresh a.dag id data) id ps with ⟨r, g2⟩
    have hlk := flagTrue_linkParents ps (insertFresh a.dag id data) id x hins
    rw [hl] at hlk
    cases r with
    | ok u => exact hlk
    | error e => exact flagTrue_removeVertex g2 id x hne hlk

theorem processVertex_dag_cases (a : Avalanche) (o : Oracle) (id : String) :
    (a.processVertex o id).dag = a.dag ∨
    (a.processVertex o id).dag = setFinalized a.dag id := by
  simp only [Avalanche.processVertex]
  split_ifs <;> simp

theorem flagTrue_processVertex (a : Avalanche) (o : Oracle) (id x : String)
    (h : flagTrue a.dag.vertices x) : flagTrue (a.processVertex o id).dag.vertices x := by
  rcases processVertex_dag_cases a o id with hc | hc
  · rw [hc]; exact h
  · rw [hc]; exact flagTrue_setFinalized a.dag id x h

theorem flagTrue_foldl_process (ids : List String) (os : String → Oracle) (a : Avalanche)
    (x : String) (h : flagTrue a.dag.vertices x) :
    flagTrue ((ids.foldl (fun acc id => acc.processVertex (os id) id) a)).dag.vertices x := by
  induction ids generalizing a with
  | nil => exact h
  | cons i rest ih =>
    simp only [List.foldl_cons]
    exact ih _ (flagTrue_processVertex a (os i) i x h)

theorem flagTrue_applyOp (a : Avalanche) (op : EngineOp) (x : String)
    (h : flagTrue a.dag.vertices x) : flagTrue (applyOp a op).dag.vertices x := by
  cases op with
  | addVertex id data ps => exact flagTrue_engine_addVertex a id data ps x h
  | processVertex o id => exact flagTrue_processVertex a o id x h
  | consensusRound os => exact flagTrue_foldl_process _ os a x h

theorem pending_none_of_wf (a : Avalanche) (x : String) (hwf : engineWF a = true)
    (hx : x ∈ a.finalized) : lookupN a.pending x = none := by
  cases hl : lookupN a.pending x with
  | none => rfl
  | some n =>
    exact absurd hx (((engineWF_iff a).mp hwf).1 (x, n) (lookupN_mem hl)).1

theorem addVertex_finalized_eq (a : Avalanche) (id : String) (data : Nat) (ps : List String) :
    (a.addVertex id data ps).2.finalized = a.finalized := by
  cases hd : lookupV a.dag.vertices id with
  | some v => simp [Avalanche.addVertex, DAG.addVertex, hd]
  | none =>
    simp only [Avalanche.addVertex, DAG.addVertex, hd]
    rcases hl : linkParents (insertFresh a.dag id data) id ps with ⟨r, g2⟩
    cases r with
    | ok u => rfl
    | error e => rfl

theorem addVertex_preserves_fin (a : Avalanche) (id : String) (data : Nat)
    (ps : List String) (x : String) (hwf : engineWF a = true) (hx : x ∈ a.finalized) :
    x ∈ (a.addVertex id data ps).2.finalized ∧
    lookupN (a.addVertex id data ps).2.pending x = none := by
  have hnone := pending_none_of_wf a x hwf hx
  have hsome := ((engineWF_iff a).mp hwf).2 x hx
  refine ⟨by rw [addVertex_finalized_eq]; exact hx, ?_⟩
  cases hd : lookupV a.dag.vertices id with
  | some v =>
    have hst : (a.addVertex id data ps).2 = a := by
      simp [Avalanche.addVertex, DAG.addVertex, hd]
    rw [hst]
    exact hnone
  | none =>
    have hne : x ≠ id := by
      intro hcon
      rw [hcon, hd] at hsome
      simp at hsome
    simp only [Avalanche.addVertex, DAG.addVertex, hd]
    rcases hl : linkParents (insertFresh a.dag id data) id ps with ⟨r, g2⟩
    cases r with
    | ok u =>
      show lookupN (setP a.pending id 0) x = none
      rw [lookupN_setP, if_neg hne]
      exact hnone
    | error e => exact hnone

theorem processVertex_preserves_fin (a : Avalanche) (o : Oracle) (id x : String)
    (hwf : engineWF a = true) (hx : x ∈ a.finalized) :
    x ∈ (a.processVertex o id).finalized ∧
    lookupN (a.processVertex o id).pending x = none := by
  have hnone := pending_none_of_wf a x hwf hx
  by_cases hfin : id ∈ a.finalized
  · have hst : a.processVertex o id = a := by simp [Avalanche.processVertex, hfin]
    rw [hst]
    exact ⟨hx, hnone⟩
  · have hne : x ≠ id := fun hcon => hfin (hcon ▸ hx)
    by_cases hsamp : a.getSamples o id a.params.k = []
    · have hst : a.processVertex o id = a := by
        simp [Avalanche.processVertex, hfin, hsamp]
      rw [hst]
      exact ⟨hx, hnone⟩
    · have heq := processVertex_eq a o id hfin hsamp
      by_cases hA : a.params.alpha ≤ a.approvals o id
      · by_cases hT : a.getConfidenceThreshold id ≤ (lookupN a.pending id).getD 0 + 1
        · rw [if_pos hA, if_pos hT] at heq
          rw [heq]
          refine ⟨(mem_addId_iff _ _ _).mpr (Or.inl hx), ?_⟩
          rw [lookupN_eraseP, if_neg hne, lookupN_setP, if_neg hne]
          exact hnone
        · rw [if_pos hA, if_neg hT] at heq
          rw [heq]
          exact ⟨hx, by rw [lookupN_setP, if_neg hne]; exact hnone⟩
      · rw [if_neg hA] at heq
        rw [heq]
        exact ⟨hx, by rw [lookupN_setP, if_neg hne]; exact hnone⟩

theorem foldl_process_preserves_fin (ids : List String) (os : String → Oracle)
    (a : Avalanche) (x : String) (hwf : engineWF a = true) (hx : x ∈ a.finalized) :
    x ∈ ((ids.foldl (fun acc id => acc.processVertex (os id) id) a)).finalized ∧
    lookupN ((ids.foldl (fun acc id => acc.processVertex (os id) id) a)).pending x = none := by
  induction ids generalizing a with
  | nil => exact ⟨hx, pending_none_of_wf a x hwf hx⟩
  | cons i rest ih =>
    simp only [List.foldl_cons]
    exact ih _ (wf_processVertex a (os i) i hwf)
      (processVertex_preserves_fin a (os i) i x hwf hx).1

theorem applyOp_preserves_fin (a : Avalanche) (op : EngineOp) (x : String)
    (hwf : engineWF a = true) (hx : x ∈ a.finalized) :
    x ∈ (applyOp a op).finalized ∧ lookupN (applyOp a op).pending x = none := by
  cases op with
  | addVertex id data ps => exact addVertex_preserves_fin a id data ps x hwf hx
  | processVertex o id => exact processVertex_preserves_fin a o id x hwf hx
  | consensusRound os => exact foldl_process_preserves_fin _ os a x hwf hx

/-- C9 (status: confirmed). Finalization is monotone: starting from any
well-formed engine state in which vertex `x` is finalized (member of the
finalized set, DAG flag true), after every sequence of engine operations
`x` is still in the finalized set, its id is absent from the pending map
(it never re-enters), and the DAG still stores a vertex for `x` whose
finalized flag is true (the flag is never reset). -/
theorem c9_finalization_monotone (a : Avalanche) (x : String) (v : Vertex)
    (hwf : engineWF a = true)
    (hx : x ∈ a.finalized)
    (hv : lookupV a.dag.vertices x = some v) (hvf : v.finalized = true) :
    ∀ ops : List EngineOp,
      x ∈ (applyOps a ops).finalized ∧
      lookupN (applyOps a ops).pending x = none ∧
      ∃ v', lookupV (applyOps a ops).dag.vertices x = some v' ∧ v'.finalized = true := by
  intro ops
  induction ops generalizing a v with
  | nil => exact ⟨hx, pending_none_of_wf a x hwf hx, v, hv, hvf⟩
  | cons op rest ih =>
    have hwf' := wf_applyOp a op hwf
    have hfin' := applyOp_preserves_fin a op x hwf hx
    obtain ⟨v', hv', hvf'⟩ := flagTrue_applyOp a op x ⟨v, hv, hvf⟩
    exact ih (applyOp a op) v' hwf' hfin'.1 hv' hvf'

/-- The already finalized vertex `f` of the C9 witness engine. -/
def vtxF : Vertex :=
  { id := "f", data := 4, parents := [], children := [],
    preferred := false, finalized := true }

/-- The still pending vertex `g` of the C9 witness engine. -/
def vtxG : Vertex :=
  { id := "g", data := 5, parents := [], children := [],
    preferred := false, finalized := false }

/-- Engine for the C9 witness: `f` already finalized (set and flag), `g`
still pending. -/
def engC9 : Avalanche :=
  { dag := { vertices := [("f", vtxF), ("g", vtxG)], roots := ["f", "g"] },
    params := { k := 1, alpha := 1, betaVirtuous := 1, betaRogue := 2 },
    pending := [("g", 0)], finalized := ["f"] }

/-- Operation sequence exercised by the C9 witness. -/
def opsC9 : List EngineOp :=
  [EngineOp.processVertex oracle0 "g",
   EngineOp.addVertex "h" 6 ["f"],
   EngineOp.consensusRound (fun _ => oracle0)]

/-- Witness for C9 at a concrete engine and operation sequence. -/
theorem c9_finalization_monotone_witness :
    "f" ∈ (applyOps engC9 opsC9).finalized ∧
    lookupN (applyOps engC9 opsC9).pending "f" = none ∧
    ∃ v', lookupV (applyOps engC9 opsC9).dag.vertices "f" = some v' ∧
          v'.finalized = true :=
  c9_finalization_monotone engC9 "f" vtxF
    (by decide) (by decide) (by decide) (by decide) opsC9

/-! ## Rollback analysis for the engine's AddVertex (C2) -/

theorem addEdge_error_eq {g : DAG} {p c : String} {e : DAGError}
    (h : (g.addEdge p c).1 = Except.error e) : (g.addEdge p c).2 = g := by
  cases hp : lookupV g.vertices p with
  | none => simp [DAG.addEdge, hp]
  | some pv =>
    cases hc : lookupV g.vertices c with
    | none => simp [DAG.addEdge, hp, hc]
    | some cv =>
      by_cases hcy : g.wouldCreateCycle pv cv
      · simp [DAG.addEdge, hp, hc, hcy]
      · rw [DAG.addEdge] at h
        simp only [hp, hc, hcy, Bool.false_eq_true, if_false] at h
        exact Except.noConfusion h

theorem lookupV_foldl_updateV_nodup (l : List String) (hl : l.Nodup)
    (f : Vertex → Vertex) (vs : List (String × Vertex)) (x : String) :
    lookupV (l.foldl (fun vs y => updateV vs y f) vs) x =
      if x ∈ l then (lookupV vs x).map f else lookupV vs x := by
  induction l generalizing vs with
  | nil => simp
  | cons y rest ih =>
    simp only [List.foldl_cons]
    rw [ih (List.Nodup.of_cons hl)]
    by_cases hx : x ∈ rest
    · have hxy : x ≠ y := by
        intro hcon
        subst hcon
        exact (List.nodup_cons.mp hl).1 hx
      rw [if_pos hx, if_pos (List.mem_cons_of_mem y hx), lookupV_updateV, if_neg hxy]
    · rw [if_neg hx, lookupV_updateV]
      by_cases hxy : x = y
      · subst hxy
        simp
      · simp [hxy, List.mem_cons, hx]

/-- Unpacked form of the DAG well-formedness predicate. -/
theorem dagWF_spec {g : DAG} (h : dagWF g = true) :
    (g.vertices.map (·.1)).Nodup ∧
    ∀ kv ∈ g.vertices, kv.2.id = kv.1 ∧ kv.2.parents.Nodup ∧ kv.2.children.Nodup ∧
      (∀ p ∈ kv.2.parents, p ≠ kv.1 ∧ (lookupV g.vertices p).isSome = true) ∧
      (∀ c ∈ kv.2.children, (lookupV g.vertices c).isSome = true) := by
  simp only [dagWF, Bool.and_eq_true, List.all_eq_true, decide_eq_true_eq] at h
  obtain ⟨hnd, hall⟩ := h
  refine ⟨hnd, fun kv hkv => ?_⟩
  obtain ⟨⟨⟨⟨h1, h2⟩, h3⟩, h4⟩, h5⟩ := hall kv hkv
  refine ⟨h1, h2, h3, fun p hp => ?_, fun c hc => ?_⟩
  · obtain ⟨hp1, hp2⟩ := h4 p hp
    exact ⟨hp1, hp2⟩
  · exact h5 c hc

/-- Invariant of the DAG from the moment the fresh vertex `id` is inserted
through the parent-linking loop: the `id` vertex exists with no children
and duplicate-free parents, and every other vertex mentions `id` in its
child set only if it is one of the linked parents (at most once), and never
in its parent set. -/
def RollInv (id : String) (g : DAG) : Prop :=
  ∃ vI, lookupV g.vertices id = some vI ∧
    vI.children = [] ∧ vI.parents.Nodup ∧ id ∉ vI.parents ∧
    (∀ x w, x ≠ id → lookupV g.vertices x = some w →
       id ∉ w.parents ∧ (id ∈ w.children → x ∈ vI.parents) ∧ w.children.count id ≤ 1)

theorem rollinv_init (g0 : DAG) (id : String) (data : Nat)
    (hwf : dagWF g0 = true) (hfresh : lookupV g0.vertices id = none) :
    RollInv id (insertFresh g0 id data) := by
  refine ⟨freshVertex id data, ?_, rfl, List.nodup_nil, List.not_mem_nil id, ?_⟩
  · rw [lookupV_insertFresh _ _ _ _ hfresh, if_pos rfl]
  · intro x w hx hw
    rw [lookupV_insertFresh _ _ _ _ hfresh, if_neg hx] at hw
    obtain ⟨hnd, hall⟩ := dagWF_spec hwf
    obtain ⟨h1, h2, h3, h4, h5⟩ := hall (x, w) (lookupV_mem hw)
    have hidp : id ∉ w.parents := by
      intro hmem
      have := (h4 id hmem).2
      rw [hfresh] at this
      simp at this
    have hidc : id ∉ w.children := by
      intro hmem
      have := h5 id hmem
      rw [hfresh] at this
      simp at this
    refine ⟨hidp, fun hmem => absurd hmem hidc, ?_⟩
    rw [List.count_eq_zero.mpr hidc]
    omega

theorem rollinv_addEdge {id : String} {g g' : DAG} {pid : String} {u : Unit}
    (hinv : RollInv id g) (hok : g.addEdge pid id = (Except.ok u, g')) :
    RollInv id g' := by
  obtain ⟨vI, hvI, hchil, hnd, hnotmem, hrest⟩ := hinv
  have hpid : pid ≠ id := by
    intro hcon
    subst hcon
    rw [addEdge_self_eq g pid vI hvI] at hok
    simp at hok
  cases hp : lookupV g.vertices pid with
  | none => simp only [DAG.addEdge, hp] at hok; simp at hok
  | some pv =>
    by_cases hcy : g.wouldCreateCycle pv vI
    · simp only [DAG.addEdge, hp, hvI, hcy, if_true] at hok
      simp at hok
    · simp only [DAG.addEdge, hp, hvI, hcy, Bool.false_eq_true, if_false] at hok
      injection hok with h1 h2
      subst h2
      refine ⟨{ vI with parents := addId vI.parents pid }, ?_, hchil,
        addId_nodup hnd pid, ?_, ?_⟩
      · rw [lookupV_updateV, if_pos rfl, lookupV_updateV,
          if_neg (fun hcon : id = pid => hpid hcon.symm), hvI]
        rfl
      · intro hmem
        rcases (mem_addId_iff _ _ _).mp hmem with hmem | hmem
        · exact hnotmem hmem
        · exact hpid hmem.symm
      · intro x w hx hw
        rw [lookupV_updateV, if_neg hx, lookupV_updateV] at hw
        by_cases hxp : x = pid
        · subst hxp
          rw [if_pos rfl, hp] at hw
          cases hw
          obtain ⟨ha, hb, hc⟩ := hrest x pv hx hp
          refine ⟨ha, fun _ => (mem_addId_iff _ _ _).mpr (Or.inr rfl), ?_⟩
          by_cases hmem : id ∈ pv.children
          · simp only [addId, if_pos hmem]
            exact hc
          · simp only [addId, if_neg hmem]
            rw [List.count_append, List.count_eq_zero.mpr hmem]
            simp
        · rw [if_neg hxp] at hw
          obtain ⟨ha, hb, hc⟩ := hrest x w hx hw
          exact ⟨ha, fun hmem => (mem_addId_iff _ _ _).mpr (Or.inl (hb hmem)), hc⟩

theorem rollinv_linkParents (ps : List String) (g : DAG) (id : String)
    (hinv : RollInv id g) : RollInv id (linkParents g id ps).2 := by
  induction ps generalizing g with
  | nil => exact hinv
  | cons pid rest ih =>
    simp only [linkParents]
    rcases he : g.addEdge pid id with ⟨r, g'⟩
    cases r with
    | error e =>
      have hg : g' = g := by
        have h1 : (g.addEdge pid id).1 = Except.error e := by rw [he]
        have h2 := addEdge_error_eq h1
        rw [he] at h2
        exact h2
      show RollInv id g'
      rw [hg]
      exact hinv
    | ok u => exact ih g' (rollinv_addEdge hinv he)

theorem rollback_clean {id : String} {g : DAG} (hinv : RollInv id g) :
    lookupV (g.removeVertex id).2.vertices id = none ∧
    (∀ x w, lookupV (g.removeVertex id).2.vertices x = some w →
        id ∉ w.children ∧ id ∉ w.parents) := by
  obtain ⟨vI, hvI, hchil, hnd, hnotmem, hrest⟩ := hinv
  simp only [DAG.removeVertex, hvI, hchil, List.foldl_nil]
  constructor
  · rw [lookupV_removeKey, if_pos rfl]
  · intro x w hw
    rw [lookupV_removeKey] at hw
    by_cases hx : x = id
    · rw [if_pos hx] at hw
      exact Option.noConfusion hw
    · rw [if_neg hx] at hw
      rw [lookupV_foldl_updateV_nodup vI.parents hnd] at hw
      by_cases hxm : x ∈ vI.parents
      · rw [if_pos hxm] at hw
        cases hg : lookupV g.vertices x with
        | none => rw [hg] at hw; exact Option.noConfusion hw
        | some w0 =>
          rw [hg] at hw
          cases hw
          obtain ⟨ha, hb, hc⟩ := hrest x w0 hx hg
          constructor
          · intro hmem
            have hcnt := List.count_erase_self id w0.children
            have hpos : 0 < (w0.children.erase id).count id := by
              rcases Nat.eq_zero_or_pos ((w0.children.erase id).count id) with h0 | h0
              · exact absurd (List.count_eq_zero.mp h0) (fun hno => hno hmem)
              · exact h0
            omega
          · exact ha
      · rw [if_neg hxm] at hw
        obtain ⟨ha, hb, hc⟩ := hrest x w hx hw
        exact ⟨fun hmem => hxm (hb hmem), ha⟩

theorem linkParents_error_of_missing (ps : List String) (g0 : DAG) (id : String) :
    ∀ g : DAG,
      (∀ x, (lookupV g.vertices x).isSome = true ↔
          (x = id ∨ (lookupV g0.vertices x).isSome = true)) →
      (∃ pid ∈ ps, lookupV g0.vertices pid = none) →
      ∃ e g', linkParents g id ps = (Except.error e, g') := by
  induction ps with
  | nil =>
    intro g hdom hmiss
    obtain ⟨pid, hmem, _⟩ := hmiss
    exact absurd hmem (List.not_mem_nil pid)
  | cons pid rest ih =>
    intro g hdom hmiss
    simp only [linkParents]
    rcases he : g.addEdge pid id with ⟨r, g'⟩
    cases r with
    | error e => exact ⟨e, g', rfl⟩
    | ok u =>
      have hpid_in : (lookupV g.vertices pid).isSome = true := by
        cases hpp : lookupV g.vertices pid with
        | none => simp only [DAG.addEdge, hpp] at he; simp at he
        | some pv => simp
      have hpid_ne : pid ≠ id := by
        intro hcon
        subst hcon
        obtain ⟨v, hv⟩ := Option.isSome_iff_exists.mp hpid_in
        rw [addEdge_self_eq g pid v hv] at he
        simp at he
      obtain ⟨pid0, hmem0, hmiss0⟩ := hmiss
      rcases List.mem_cons.mp hmem0 with h0 | h0
      · subst h0
        rcases (hdom pid0).mp hpid_in with h1 | h1
        · exact absurd h1 hpid_ne
        · rw [hmiss0] at h1
          simp at h1
      · have hdom' : ∀ x, (lookupV g'.vertices x).isSome = true ↔
            (x = id ∨ (lookupV g0.vertices x).isSome = true) := by
          intro x
          have hae := addEdge_lookup_isSome g pid id x
          rw [he] at hae
          rw [hae]
          exact hdom x
        exact ih g' hdom' ⟨pid0, h0, hmiss0⟩

/-- C2 (status: confirmed). The engine's `AddVertex(id, data, parentIds)`
is atomic on a well-formed DAG in which `id` is fresh: whenever some listed
parent is missing the call errs; and whenever the call errs, the inserted
vertex has been removed again (`GetVertex(id)` is NotFound), no vertex
keeps `id` among its children or parents (already linked edges are
detached), and the pending map and finalized set are untouched. -/
theorem c2_engine_addVertex_rollback (a : Avalanche) (id : String) (data : Nat)
    (ps : List String)
    (hwf : dagWF a.dag = true)
    (hfresh : lookupV a.dag.vertices id = none) :
    ((∃ pid ∈ ps, lookupV a.dag.vertices pid = none) →
        ∃ e, (a.addVertex id data ps).1 = Except.error e) ∧
    (∀ e, (a.addVertex id data ps).1 = Except.error e →
        (a.addVertex id data ps).2.dag.getVertex id =
          Except.error DAGError.vertexNotFound ∧
        (∀ x w, lookupV (a.addVertex id data ps).2.dag.vertices x = some w →
            id ∉ w.children ∧ id ∉ w.parents) ∧
        (a.addVertex id data ps).2.pending = a.pending ∧
        (a.addVertex id data ps).2.finalized = a.finalized) := by
  have hg1dom : ∀ x, (lookupV (insertFresh a.dag id data).vertices x).isSome = true ↔
      (x = id ∨ (lookupV a.dag.vertices x).isSome = true) := by
    intro x
    rw [lookupV_insertFresh _ _ _ _ hfresh]
    by_cases hx : x = id
    · simp [hx]
    · simp [hx]
  constructor
  · intro hmiss
    obtain ⟨e, g', hlp⟩ := linkParents_error_of_missing ps a.dag id
      (insertFresh a.dag id data) hg1dom hmiss
    refine ⟨e, ?_⟩
    simp only [Avalanche.addVertex, DAG.addVertex, hfresh, hlp]
  · intro e herr
    have hinv0 := rollinv_init a.dag id data hwf hfresh
    simp only [Avalanche.addVertex, DAG.addVertex, hfresh] at herr ⊢
    rcases hl : linkParents (insertFresh a.dag id data) id ps with ⟨r, g2⟩
    rw [hl] at herr
    cases r with
    | ok u => exact Except.noConfusion herr
    | error e' =>
      have hinv2 : RollInv id g2 := by
        have h2 := rollinv_linkParents ps (insertFresh a.dag id data) id hinv0
        rw [hl] at h2
        exact h2
      obtain ⟨hnone, hclean⟩ := rollback_clean hinv2
      refine ⟨?_, fun x w hw => hclean x w hw, rfl, rfl⟩
      show ((g2.removeVertex id).2).getVertex id = Except.error DAGError.vertexNotFound
      simp only [DAG.getVertex, hnone]

/-- Witness for C2: adding `"c"` with a nonexistent parent to the
two-vertex engine errs and leaves no residue. -/
theorem c2_engine_addVertex_rollback_witness :
    (engC4.addVertex "c" 9 ["nope"]).2.dag.getVertex "c" =
      Except.error DAGError.vertexNotFound ∧
    (engC4.addVertex "c" 9 ["nope"]).2.pending = engC4.pending :=
  ⟨((c2_engine_addVertex_rollback engC4 "c" 9 ["nope"] (by decide) (by decide)).2
      DAGError.vertexNotFound rfl).1,
   ((c2_engine_addVertex_rollback engC4 "c" 9 ["nope"] (by decide) (by decide)).2
      DAGError.vertexNotFound rfl).2.2.1⟩

/-! ## Sampler analysis (C4) -/

theorem swapL_length (xs : List String) (i j : Nat) :
    (swapL xs i j).length = xs.length := by
  unfold swapL
  cases hi : xs.get? i with
  | none => rfl
  | some x =>
    cases hj : xs.get? j with
    | none => rfl
    | some y => simp [List.length_set]

theorem swapL_nodup (xs : List String) (i j : Nat) (h : xs.Nodup) :
    (swapL xs i j).Nodup := by
  unfold swapL
  cases hi : xs.get? i with
  | none => exact h
  | some x =>
    cases hj : xs.get? j with
    | none => exact h
    | some y =>
      rw [List.get?_eq_getElem?] at hi hj
      obtain ⟨hilt, hxi⟩ := List.getElem?_eq_some.mp hi
      obtain ⟨hjlt, hyj⟩ := List.getElem?_eq_some.mp hj
      show ((xs.set i y).set j x).Nodup
      apply List.nodup_iff_injective_getElem.mpr
      rintro ⟨k1, hk1⟩ ⟨k2, hk2⟩ heq
      simp only [List.getElem_set] at heq
      apply Fin.ext
      show k1 = k2
      split_ifs at heq <;>
        first
        | omega
        | (have hab := (List.Nodup.getElem_inj_iff h).mp heq; omega)
        | (simp only [← hxi, ← hyj] at heq
           have hab := (List.Nodup.getElem_inj_iff h).mp heq
           omega)

theorem fisherYates_length (rnd : Nat → Nat) (n : Nat) (xs : List String) :
    (fisherYates rnd n xs).length = xs.length := by
  induction n generalizing xs with
  | zero => rfl
  | succ m ih =>
    simp only [fisherYates]
    rw [ih, swapL_length]

theorem fisherYates_nodup (rnd : Nat → Nat) (n : Nat) (xs : List String)
    (h : xs.Nodup) : (fisherYates rnd n xs).Nodup := by
  induction n generalizing xs with
  | zero => exact h
  | succ m ih => exact ih _ (swapL_nodup _ _ _ h)

theorem isSome_mem_keys {vs : List (String × Vertex)} {p : String}
    (h : (lookupV vs p).isSome = true) : p ∈ vs.map (·.1) := by
  obtain ⟨w, hw⟩ := Option.isSome_iff_exists.mp h
  exact List.mem_map.mpr ⟨(p, w), lookupV_mem hw, rfl⟩

/-- The candidate list of the sampler is a permutation of the key set of
the table minus the target id (on a well-formed DAG). -/
theorem sampleCandidates_perm (a : Avalanche) (id : String) (v : Vertex)
    (hwf : dagWF a.dag = true) (hv : lookupV a.dag.vertices id = some v) :
    List.Perm (a.sampleCandidates v id) ((a.dag.vertices.map (·.1)).erase id) := by
  obtain ⟨hnd, hall⟩ := dagWF_spec hwf
  obtain ⟨hvid, hpnd, hcnd, hpar, hchi⟩ := hall (id, v) (lookupV_mem hv)
  have hparsub : ∀ p ∈ v.parents, p ≠ id ∧ p ∈ a.dag.vertices.map (·.1) := by
    intro p hp
    obtain ⟨h1, h2⟩ := hpar p hp
    exact ⟨h1, isSome_mem_keys h2⟩
  have hstep1 : ∀ kv ∈ a.dag.vertices,
      ((fun w => decide (w.id ≠ id ∧ w.id ∉ v.parents)) ∘ (fun kv : String × Vertex => kv.2)) kv
        = ((fun x => decide (x ≠ id ∧ x ∉ v.parents)) ∘ (fun kv : String × Vertex => kv.1)) kv := by
    intro kv hkv
    simp only [Function.comp]
    rw [(hall kv hkv).1]
  have hothers : (a.dag.getVertices.filter
        (fun w => decide (w.id ≠ id ∧ w.id ∉ v.parents))).map (·.id) =
      (a.dag.vertices.map (·.1)).filter (fun x => decide (x ≠ id ∧ x ∉ v.parents)) := by
    rw [DAG.getVertices, List.filter_map, List.map_map, List.filter_congr hstep1,
      List.filter_map]
    apply List.map_congr_left
    intro kv hkv
    exact (hall kv (List.mem_of_mem_filter hkv)).1
  have hknd : (a.dag.vertices.map (·.1)).Nodup := hnd
  rw [Avalanche.sampleCandidates]
  rw [show (a.dag.getVertices.filter
        (fun w => decide (w.id ≠ id ∧ w.id ∉ v.parents))).map (·.id) =
      (a.dag.vertices.map (·.1)).filter (fun x => decide (x ≠ id ∧ x ∉ v.parents))
    from hothers]
  refine (List.perm_ext_iff_of_nodup ?_ ?_).mpr ?_
  · refine List.Nodup.append hpnd (hknd.filter _) ?_
    intro x hx1 hx2
    obtain ⟨_, hcond⟩ := List.mem_filter.mp hx2
    simp only [decide_eq_true_eq] at hcond
    exact hcond.2 hx1
  · exact hknd.erase id
  · intro x
    simp only [List.mem_append, List.mem_filter, decide_eq_true_eq,
      List.Nodup.mem_erase_iff hknd]
    constructor
    · rintro (hx | ⟨hxk, hxne, hxnp⟩)
      · obtain ⟨h1, h2⟩ := hparsub x hx
        exact ⟨h1, h2⟩
      · exact ⟨hxne, hxk⟩
    · rintro ⟨hxne, hxk⟩
      by_cases hxp : x ∈ v.parents
      · exact Or.inl hxp
      · exact Or.inr ⟨hxk, hxne, hxp⟩

/-- Length of the candidate list: one less than the number of vertices. -/
theorem sampleCandidates_length (a : Avalanche) (id : String) (v : Vertex)
    (hwf : dagWF a.dag = true) (hv : lookupV a.dag.vertices id = some v) :
    (a.sampleCandidates v id).length = a.dag.vertices.length - 1 := by
  have hperm := sampleCandidates_perm a id v hwf hv
  have hidk : id ∈ a.dag.vertices.map (·.1) :=
    isSome_mem_keys (by rw [hv]; rfl)
  rw [hperm.length_eq, List.length_erase_of_mem hidk, List.length_map]

/-- The candidate list is duplicate free. -/
theorem sampleCandidates_nodup (a : Avalanche) (id : String) (v : Vertex)
    (hwf : dagWF a.dag = true) (hv : lookupV a.dag.vertices id = some v) :
    (a.sampleCandidates v id).Nodup := by
  have hperm := sampleCandidates_perm a id v hwf hv
  have hknd : (a.dag.vertices.map (·.1)).Nodup := (dagWF_spec hwf).1
  exact hperm.nodup_iff.mpr (hknd.erase id)

/-- C4 amended (status: corrected). For a target id present in a
well-formed DAG and K > 0: with fewer than K total vertices the sampler
returns the empty sequence; with at least K+1 vertices (so at least K
candidates) it returns exactly K distinct ids; but with exactly K vertices
it returns all K−1 candidates — a non-empty list when K > 1 — rather than
the empty sequence the original claim required. -/
theorem c4_sampler_amended (a : Avalanche) (o : Oracle) (id : String) (v : Vertex) (k : Nat)
    (hwf : dagWF a.dag = true) (hv : lookupV a.dag.vertices id = some v) (hk : 0 < k) :
    (a.dag.getVertices.length < k → a.getSamples o id k = []) ∧
    (k + 1 ≤ a.dag.getVertices.length →
        (a.getSamples o id k).length = k ∧ (a.getSamples o id k).Nodup) ∧
    (a.dag.getVertices.length = k →
        a.getSamples o id k = a.sampleCandidates v id ∧
        (a.sampleCandidates v id).length = k - 1) := by
  have hgv : a.dag.getVertex id = Except.ok v := by simp [DAG.getVertex, hv]
  have hlen : a.dag.getVertices.length = a.dag.vertices.length := by
    simp [DAG.getVertices]
  have hclen := sampleCandidates_length a id v hwf hv
  have hcnodup := sampleCandidates_nodup a id v hwf hv
  refine ⟨?_, ?_, ?_⟩
  · intro h
    simp [Avalanche.getSamples, h]
  · intro h
    have hnlt : ¬ (a.dag.getVertices.length < k) := by omega
    have hge : k ≤ (a.sampleCandidates v id).length := by
      rw [hclen]
      omega
    by_cases hle : (a.sampleCandidates v id).length ≤ k
    · have heq2 : (a.sampleCandidates v id).length = k := by omega
      have hres : a.getSamples o id k = a.sampleCandidates v id := by
        simp [Avalanche.getSamples, hnlt, hgv, hle]
      rw [hres]
      exact ⟨heq2, hcnodup⟩
    · have hres : a.getSamples o id k =
          (fisherYates o.shuffle ((a.sampleCandidates v id).length - 1)
            (a.sampleCandidates v id)).take k := by
        simp [Avalanche.getSamples, hnlt, hgv, hle]
      rw [hres]
      constructor
      · rw [List.length_take, fisherYates_length]
        exact Nat.min_eq_left hge
      · exact List.Nodup.sublist (List.take_sublist _ _)
          (fisherYates_nodup _ _ _ hcnodup)
  · intro h
    have hnlt : ¬ (a.dag.getVertices.length < k) := by omega
    have hle : (a.sampleCandidates v id).length ≤ k := by
      rw [hclen]
      omega
    have hres : a.getSamples o id k = a.sampleCandidates v id := by
      simp [Avalanche.getSamples, hnlt, hgv, hle]
    refine ⟨hres, ?_⟩
    rw [hclen]
    omega

/-- A four-vertex DAG for the C4 witness. -/
def dagFour : DAG :=
  { vertices := [("w", freshVertex "w" 1), ("x", freshVertex "x" 2),
                 ("y", freshVertex "y" 3), ("z", freshVertex "z" 4)],
    roots := ["w", "x", "y", "z"] }

/-- Engine over `dagFour`. -/
def engFour : Avalanche :=
  { dag := dagFour,
    params := { k := 2, alpha := 2, betaVirtuous := 3, betaRogue := 4 },
    pending := [], finalized := [] }

/-- Witness for the amended C4: with 4 vertices and K = 2 the sampler
returns exactly 2 distinct ids. -/
theorem c4_sampler_amended_witness :
    (engFour.getSamples oracle0 "w" 2).length = 2 ∧
    (engFour.getSamples oracle0 "w" 2).Nodup :=
  (c4_sampler_amended engFour oracle0 "w" (freshVertex "w" 1) 2
      (by decide) (by decide) (by decide)).2.1 (by decide)
